import Mathlib

/-!
Verification of the SugarDB (memstore) core against its specification.

The definitions below are shallow embeddings of the Go source:

* `src/src/main.go` — the `Server` type: per-key lock acquisition
  (`KeyLock`, `KeyRLock`, `KeyUnlock`, `KeyRUnlock`, `KeyExists`,
  `CreateKeyAndLock`), the command registry (`LoadCommands`, `getCommand`)
  and the per-connection dispatch loop (`handleConnection`).
* `src/server/utils/linked_list.go` — the generic linear/ring linked list
  (`Add`, `Remove`, `Contains`, `Iter`).

Go strings and byte slices are modelled as `List Nat` (byte values); Go maps
are modelled as association lists in insertion order (Go map iteration order
is unspecified; insertion order is one admissible order); pointer-linked
nodes are modelled by a heap (`List GoNode`) addressed by allocation index;
unbounded Go `for` loops are modelled with explicit fuel, `none` standing
for an execution that does not finish (divergence or a nil-pointer panic).
-/

/-- Bytes of a string literal (ASCII), the model of a Go `string` / `[]byte`. -/
def bytes (s : String) : List Nat :=
  s.toList.map Char.toNat

/-! ## Keyspace: per-key locks (`main.go` lines 56-112)

`server.keyLocks` is a Go `map[string]*sync.RWMutex`; a missing key yields a
`nil` pointer, and calling `TryLock`/`TryRLock`/`Unlock`/`RUnlock` on a nil
`*sync.RWMutex` panics (nil dereference).  We model the map as
`String → Option Unit` (the pointer is present or nil) and the dynamic
availability of the write/read lock as an oracle `Nat → Bool` indexed by the
time in milliseconds at which `TryLock`/`TryRLock` is attempted. -/

/-- A Go runtime fault (nil-pointer dereference panic). -/
inductive Fault where
  | nilDeref
deriving DecidableEq

/-- Result of `KeyLock` / `KeyRLock`: Go returns `(true, nil)` on acquisition
and `(false, context.Cause(ctx))` on cancellation; a nil map entry panics. -/
inductive LockResult where
  | acquired
  | cancelled (cause : List Nat)
  | fault (f : Fault)
deriving DecidableEq

/-- `time.NewTicker(5 * time.Millisecond)` — the retry cadence of the
polling loops in `KeyLock` and `KeyRLock`. -/
def tickMs : Nat := 5

/-- `Server.KeyLock` (`main.go` 56-70), one ticker period per recursion step.
Go's `select` takes the ready `<-ctx.Done()` case when the context is done
and otherwise falls to `default`, which calls `TryLock` on the key's mutex
pointer (a nil dereference when the key has no entry).  On a failed try the
loop blocks on `<-ticker.C` and retries `tickMs` ms later.  `fuel` bounds the
number of iterations; `none` means the loop was still running. -/
def keyLockRun (locks : String → Option Unit) (key : String)
    (avail done : Nat → Bool) (cause : List Nat) :
    Nat → Nat → Option LockResult
  | 0, _ => none
  | fuel + 1, t =>
    if done t then some (.cancelled cause)
    else
      match locks key with
      | none => some (.fault .nilDeref)
      | some _ =>
        if avail t then some .acquired
        else keyLockRun locks key avail done cause fuel (t + tickMs)

/-- `Server.KeyRLock` (`main.go` 76-90): identical polling loop around
`TryRLock`. -/
def keyRLockRun (locks : String → Option Unit) (key : String)
    (avail done : Nat → Bool) (cause : List Nat) :
    Nat → Nat → Option LockResult
  | 0, _ => none
  | fuel + 1, t =>
    if done t then some (.cancelled cause)
    else
      match locks key with
      | none => some (.fault .nilDeref)
      | some _ =>
        if avail t then some .acquired
        else keyRLockRun locks key avail done cause fuel (t + tickMs)

/-- `Server.KeyUnlock` (`main.go` 72-74): `server.keyLocks[key].Unlock()`,
a nil dereference when the key has no entry. -/
def keyUnlockRun (locks : String → Option Unit) (key : String) :
    Except Fault Unit :=
  match locks key with
  | none => .error .nilDeref
  | some _ => .ok ()

/-- `Server.KeyRUnlock` (`main.go` 92-94). -/
def keyRUnlockRun (locks : String → Option Unit) (key : String) :
    Except Fault Unit :=
  match locks key with
  | none => .error .nilDeref
  | some _ => .ok ()

/-- `Server.KeyExists` (`main.go` 96-98): `server.keyLocks[key] != nil`. -/
def keyExistsRun (locks : String → Option Unit) (key : String) : Bool :=
  (locks key).isSome

/-! ## `CreateKeyAndLock` gate events (`main.go` 100-112)

`CreateKeyAndLock` takes `server.keyCreationLock.Lock()` at entry and
releases it with `defer server.keyCreationLock.Unlock()`.  A Go `defer`
runs when the surrounding function returns, i.e. after the returned
expression — in the key-exists branch, after `server.KeyLock(ctx, key)` has
completed.  We record the sequence of gate-relevant events of one call. -/

inductive GateEv where
  | acquireGate
  | installLock
  | keyLockBegin
  | keyLockEnd
  | releaseGate
deriving DecidableEq

/-- Event trace of one `CreateKeyAndLock(ctx, key)` call, by whether
`KeyExists(key)` held under the gate.  Absent: install a write-held lock in
the table, then the deferred unlock fires.  Present: the call falls through
to `KeyLock(ctx, key)`, and only after that call returns does the deferred
unlock release the creation gate. -/
def createKeyAndLockTrace (keyAlreadyExists : Bool) : List GateEv :=
  if !keyAlreadyExists then
    [.acquireGate, .installLock, .releaseGate]
  else
    [.acquireGate, .keyLockBegin, .keyLockEnd, .releaseGate]

/-! ## Command registry (`main.go` 33-54, 122-129, 322-330)

`server.commands` is a Go `map[string]utils.ServerCommand`, modelled as an
association list in insertion order.  Command names are byte strings
(`List Nat`); `strings.EqualFold` is modelled for ASCII as equality after
case folding each byte to lower case. -/

/-- ASCII case folding of one byte: upper-case letters map to lower case. -/
def foldByte (b : Nat) : Nat :=
  if 65 ≤ b ∧ b ≤ 90 then b + 32 else b

/-- ASCII upper-casing of one byte. -/
def upperByte (b : Nat) : Nat :=
  if 97 ≤ b ∧ b ≤ 122 then b - 32 else b

/-- ASCII lower-casing of one byte. -/
def lowerByte (b : Nat) : Nat :=
  if 65 ≤ b ∧ b ≤ 90 then b + 32 else b

/-- `strings.ToUpper` on an ASCII name. -/
def upperName (s : List Nat) : List Nat := s.map upperByte

/-- `strings.ToLower` on an ASCII name. -/
def lowerName (s : List Nat) : List Nat := s.map lowerByte

/-- `strings.EqualFold` on ASCII names: equal after case folding. -/
def eqFold (a b : List Nat) : Bool :=
  a.map foldByte == b.map foldByte

/-- `utils.SubCommand` — only the `Sync` field is consulted by the
dispatcher (`main.go` 179). -/
structure SubCommand where
  Sync : Bool
deriving DecidableEq

/-- `utils.Command` as consulted by the dispatcher: the registered name and
the `Sync` flag (`main.go` 174, 325). -/
structure CommandRec where
  Command : List Nat
  Sync : Bool
deriving DecidableEq

/-- `utils.ServerCommand` (`main.go` 325-328): the command record; the
`Plugin` handler is abstracted into the dispatch environment below. -/
structure ServerCommand where
  Command : CommandRec
deriving DecidableEq

/-- The registry: `map[string]utils.ServerCommand` as an insertion-ordered
association list. -/
abbrev Registry := List (List Nat × ServerCommand)

/-- One Go map assignment `m[k] = v`: replace the value at a byte-identical
key if present, otherwise add a new entry. -/
def mapAssign (m : Registry) (k : List Nat) (v : ServerCommand) : Registry :=
  if m.any (fun p => p.1 == k) then
    m.map (fun p => if p.1 == k then (k, v) else p)
  else
    m ++ [(k, v)]

/-- `Server.LoadCommands` (`main.go` 322-330): for each command of the
plugin, `server.commands[command.Command] = ServerCommand{...}`. -/
def loadCommands (m : Registry) (cmds : List CommandRec) : Registry :=
  cmds.foldl (fun m c => mapAssign m c.Command ⟨c⟩) m

/-- `Server.getCommand` (`main.go` 122-129): scan the map for the first
entry whose key is `strings.EqualFold`-equal to the query; otherwise
`fmt.Errorf("command %s not supported", cmd)`. -/
def getCommand (m : Registry) (cmd : List Nat) :
    Except (List Nat) ServerCommand :=
  match m.find? (fun p => eqFold p.1 cmd) with
  | some p => .ok p.2
  | none => .error (bytes "command " ++ cmd ++ bytes " not supported")

/-! ## Dispatcher (`main.go` 139-255)

One iteration of the per-connection loop after a frame has been read,
starting at `utils.Decode` (line 160).  Everything the iteration consumes
from collaborators outside `src/` (`utils.Decode`, `utils.GetSubCommand`,
`ACL.AuthorizeConnection`, the plugin handler, `json.Marshal`,
`isRaftLeader`, `raft.Apply`) is an input in `DispatchEnv`; the registry and
`getCommand` are the real ones above. -/

/-- `utils.ApplyResponse` as consumed at `main.go` 228-242. -/
structure ApplyResponse where
  Error : Option (List Nat)
  Response : List Nat
deriving DecidableEq

/-- Inputs of one dispatch iteration. -/
structure DispatchEnv where
  /-- `utils.Decode(message)`: the command vector or an error. -/
  decoded : Except (List Nat) (List (List Nat))
  /-- `server.commands`. -/
  registry : Registry
  /-- `utils.GetSubCommand(command, cmd).(utils.SubCommand)`: `some` when the
  type assertion succeeds. -/
  subCommand : Option SubCommand
  /-- `server.ACL.AuthorizeConnection(...)`: `some msg` on denial. -/
  aclError : Option (List Nat)
  /-- `server.IsInCluster()` (`main.go` 368-370). -/
  inCluster : Bool
  /-- `server.isRaftLeader()`. -/
  isLeader : Bool
  /-- `command.Plugin.HandleCommand(...)` (via `handlePluginCommand`). -/
  handlerResult : Except (List Nat) (List Nat)
  /-- `json.Marshal(applyRequest)`: marshalled bytes, or an error. -/
  marshal : Except Unit (List Nat)
  /-- `applyFuture.Error()`: `some msg` on proposal failure. -/
  applyError : Option (List Nat)
  /-- `applyFuture.Response().(utils.ApplyResponse)` assertion success. -/
  applyRespOk : Bool
  /-- The asserted `utils.ApplyResponse`. -/
  applyResp : ApplyResponse
  /-- `fmt.Sprintf("%v", r)` rendering used on assertion failure. -/
  applyRespText : List Nat

/-- Which branch of `handleConnection` produced the response. -/
inductive DTag where
  | decodeErr
  | emptyCmd
  | unknownCmd
  | aclDenied
  | handlerLookupErr
  | handlerErr
  | localOk
  | marshalErr
  | applyErr
  | applyNotOk
  | applyRespErr
  | replOk
  | notLeader
deriving DecidableEq

/-- Observable outcome of one dispatch iteration: the bytes written to the
connection, whether the plugin handler was invoked locally, whether the
cluster-synchronization section (`main.go` 201-250) was reached, and whether
`raft.Apply` was submitted. -/
structure DOut where
  tag : DTag
  written : List Nat
  handlerCalled : Bool
  replicationPath : Bool
  raftApplied : Bool
deriving DecidableEq

/-- `"\r\n\n"` — every dispatcher error line ends `\r\n` plus the historical
extra `\n`. -/
def crlfLf : List Nat := [13, 10, 10]

/-- One iteration of `handleConnection` (`main.go` 160-251), from a decoded
frame to the written response. -/
def dispatchStep (env : DispatchEnv) : DOut :=
  match env.decoded with
  | .error e => ⟨.decodeErr, bytes "-Error " ++ e ++ crlfLf, false, false, false⟩
  | .ok cmd =>
    match cmd with
    | [] => ⟨.emptyCmd, [], false, false, false⟩
    | c0 :: _ =>
      match getCommand env.registry c0 with
      | .error e => ⟨.unknownCmd, bytes "-" ++ e ++ crlfLf, false, false, false⟩
      | .ok command =>
        let synchronize :=
          match env.subCommand with
          | some sc => sc.Sync
          | none => command.Command.Sync
        match env.aclError with
        | some e => ⟨.aclDenied, bytes "-" ++ e ++ crlfLf, false, false, false⟩
        | none =>
          if !env.inCluster || !synchronize then
            match getCommand env.registry c0 with
            | .error e =>
              ⟨.handlerLookupErr, bytes "-" ++ e ++ crlfLf, false, false, false⟩
            | .ok _ =>
              match env.handlerResult with
              | .error e =>
                ⟨.handlerErr, bytes "-" ++ e ++ crlfLf, true, false, false⟩
              | .ok res => ⟨.localOk, res, true, false, false⟩
          else
            match env.marshal with
            | .error _ =>
              ⟨.marshalErr, bytes "-Error could not parse request" ++ crlfLf,
                false, true, false⟩
            | .ok _ =>
              if env.isLeader then
                match env.applyError with
                | some e =>
                  ⟨.applyErr, bytes "-Error " ++ e ++ crlfLf, false, true, true⟩
                | none =>
                  if !env.applyRespOk then
                    ⟨.applyNotOk,
                      bytes "-Error unprocessable entity " ++ env.applyRespText
                        ++ crlfLf, false, true, true⟩
                  else
                    match env.applyResp.Error with
                    | some e =>
                      ⟨.applyRespErr, bytes "-Error " ++ e ++ crlfLf,
                        false, true, true⟩
                    | none =>
                      ⟨.replOk, env.applyResp.Response, false, true, true⟩
              else
                ⟨.notLeader,
                  bytes "-Error not cluster leader, cannot carry out command"
                    ++ crlfLf, false, true, false⟩

/-- The effective sync flag of `main.go` 174-179: the resolved subcommand's
`Sync` when the type assertion succeeds, the command's `Sync` otherwise. -/
def effSync (env : DispatchEnv) (command : ServerCommand) : Bool :=
  match env.subCommand with
  | some sc => sc.Sync
  | none => command.Command.Sync

/-! ## Linked list (`server/utils/linked_list.go`)

Nodes live in a heap `List GoNode` addressed by allocation index; a Go node
pointer is `Option Nat` (`none` = nil).  The heap only grows: `Remove`
redirects pointers but never frees a node, so every allocated address stays
valid.  Node values are `Int` (the Go code is generic over `comparable`).
Unbounded `for` loops carry fuel; `none` stands for a run that does not
finish normally (divergence, or a nil-pointer panic such as `n.next.value`
with `n.next == nil`). -/

/-- A `utils.Node[T]`: value and next pointer. -/
structure GoNode where
  value : Int
  next : Option Nat
deriving DecidableEq

/-- The allocation heap. -/
abbrev Heap := List GoNode

/-- A `utils.LinkedList[T]`: head and tail pointers and the ring flag. -/
structure GoList where
  head : Option Nat
  tail : Option Nat
  ring : Bool
deriving DecidableEq

/-- `n.value` at address `a` (addresses produced by `Add` are always in
range; the default is never consulted there). -/
def valueAt (h : Heap) (a : Nat) : Int :=
  ((h[a]?).map GoNode.value).getD 0

/-- `n.next` at address `a`. -/
def nextAt (h : Heap) (a : Nat) : Option Nat :=
  ((h[a]?).map GoNode.next).getD none

/-- Assign `n.next = p` at address `a`. -/
def setNext (h : Heap) (a : Nat) (p : Option Nat) : Heap :=
  match h[a]? with
  | none => h
  | some n => h.set a ⟨n.value, p⟩

/-- `LinkedList.Add` (`linked_list.go` 39-67), allocating the new node at
the end of the heap.  The four branches of the source, in order:
empty list; second element, linear; second element, ring (new node's next
is the head); append at tail, linear; append at tail, ring. -/
def addGo (h : Heap) (l : GoList) (v : Int) : Heap × GoList :=
  match l.head with
  | none => (h ++ [⟨v, none⟩], { l with head := some h.length })
  | some hd =>
    match l.tail with
    | none =>
      if !l.ring then
        (setNext (h ++ [⟨v, none⟩]) hd (some h.length),
          { l with tail := some h.length })
      else
        (setNext (h ++ [⟨v, l.head⟩]) hd (some h.length),
          { l with tail := some h.length })
    | some tl =>
      if !l.ring then
        (setNext (h ++ [⟨v, none⟩]) tl (some h.length),
          { l with tail := some h.length })
      else
        (setNext (h ++ [⟨v, l.head⟩]) tl (some h.length),
          { l with tail := some h.length })

/-- The scan loop of `LinkedList.Contains` (`linked_list.go` 155-164):
`n` starts at `head.next`; stop with `false` at nil or back at the head,
with `true` on a value match. -/
def containsLoop (h : Heap) (headAddr : Nat) (v : Int) :
    Option Nat → Nat → Option Bool
  | _, 0 => none
  | none, _ + 1 => some false
  | some a, fuel + 1 =>
    if a = headAddr then some false
    else if valueAt h a = v then some true
    else containsLoop h headAddr v (nextAt h a) fuel

/-- `LinkedList.Contains` (`linked_list.go` 136-165).  The guard
`n == nil || (n.next == nil && n.value != value)` runs with `n = head`,
whose value is already known not to match, so it reduces to
`head.next == nil`. -/
def containsGo (h : Heap) (l : GoList) (v : Int) (fuel : Nat) : Option Bool :=
  match l.head with
  | none => some false
  | some hd =>
    if valueAt h hd = v then some true
    else
      match nextAt h hd with
      | none => some false
      | some hn => containsLoop h hd v (some hn) fuel

/-- The linear removal loop of `LinkedList.Remove` (`linked_list.go`
88-97): find `n` with `n.next.value == value`, splice it out, and repair
`tail` when the spliced node was last.  A nil `n.next` would be a Go panic
(`n.next.value`); the loop is only entered when `Contains` succeeded. -/
def removeLinearLoop (h : Heap) (l : GoList) (v : Int) :
    Nat → Nat → Option (Heap × GoList)
  | _, 0 => none
  | a, fuel + 1 =>
    match nextAt h a with
    | none => none
    | some an =>
      if valueAt h an = v then
        let nx := nextAt h an
        let h' := setNext h a nx
        match nx with
        | none => some (h', { l with tail := some a })
        | some _ => some (h', l)
      else removeLinearLoop h l v an fuel

/-- The ring removal loop of `LinkedList.Remove` (`linked_list.go`
119-133): starting at `head.next`, stop when back at the head; on
`n.next.value == value`, either take over the tail (when the match is the
tail: `l.tail = n; l.tail.next = l.head; return`) or splice and continue
(`n.next = n.next.next` with no `return`), then advance `n = n.next`. -/
def removeRingLoop (h : Heap) (l : GoList) (v : Int) (headAddr : Nat) :
    Option Nat → Nat → Option (Heap × GoList)
  | _, 0 => none
  | none, _ + 1 => none
  | some a, fuel + 1 =>
    if a = headAddr then some (h, l)
    else
      match nextAt h a with
      | none => none
      | some an =>
        if valueAt h an = v then
          if some an = l.tail then
            some (setNext h a (some headAddr), { l with tail := some a })
          else
            let h' := setNext h a (nextAt h an)
            removeRingLoop h' l v headAddr (nextAt h an) fuel
        else removeRingLoop h l v headAddr (some an) fuel

/-- `LinkedList.Remove` (`linked_list.go` 69-134). -/
def removeGo (h : Heap) (l : GoList) (v : Int) (fuel : Nat) :
    Option (Heap × GoList) :=
  match containsGo h l v fuel with
  | none => none
  | some false => some (h, l)
  | some true =>
    match l.head with
    | none => some (h, l)
    | some hd =>
      match nextAt h hd with
      | none =>
        if valueAt h hd = v then some (h, { l with head := none })
        else some (h, l)
      | some hn =>
        if !l.ring then
          if valueAt h hd = v then some (h, { l with head := some hn })
          else removeLinearLoop h l v hd fuel
        else
          if valueAt h hd = v then
            match l.tail with
            | none => none
            | some tl =>
              let h' := setNext h tl (some hn)
              if (some hn : Option Nat) = some tl then
                some (h', { l with head := some hn, tail := none })
              else
                some (h', { l with head := some hn })
          else if valueAt h hn = v then
            if some hn ≠ l.tail then
              some (setNext h hd (nextAt h hn), l)
            else
              some (setNext h hd none, l)
          else
            removeRingLoop h l v hd (some hn) fuel

/-- One advance of the `LinkedList.Iter` goroutine (`linked_list.go`
167-184) from a non-nil `n`, after `n` has been sent: when
`n == l.head && n.next == nil && l.ring`, `continue` re-sends the same
node; otherwise `n = n.next`. -/
def iterStep (h : Heap) (l : GoList) (a : Nat) : Option Nat :=
  if l.head = some a ∧ nextAt h a = none ∧ l.ring then some a
  else nextAt h a

/-- The iterator position after `k` loop iterations (`none` = the loop has
exited and the channel is closed). -/
def iterStates (h : Heap) (l : GoList) : Option Nat → Nat → Option Nat
  | st, 0 => st
  | none, _ + 1 => none
  | some a, k + 1 => iterStates h l (iterStep h l a) k

/-- The addresses sent on the channel during the first `k` loop
iterations. -/
def iterYields (h : Heap) (l : GoList) : Option Nat → Nat → List Nat
  | _, 0 => []
  | none, _ + 1 => []
  | some a, k + 1 => a :: iterYields h l (iterStep h l a) k

/-- A list built by `NewLinkedList` followed by `Add` for each value in
order. -/
def buildGo (ring : Bool) (vs : List Int) : Heap × GoList :=
  vs.foldl (fun hl v => addGo hl.1 hl.2 v) ([], ⟨none, none, ring⟩)

/-- The next pointer of node `i` in a freshly built `n`-element list:
`i+1` inside the chain; after the last node, the head (ring of ≥ 2
elements) or nil. -/
def canonNext (ring : Bool) (n i : Nat) : Option Nat :=
  if i + 1 < n then some (i + 1)
  else if ring ∧ 2 ≤ n then some 0
  else none

/-- The heap of a freshly built list: node `i` holds the `i`-th value. -/
def canonHeap (ring : Bool) (vs : List Int) : Heap :=
  (List.range vs.length).map (fun i => ⟨vs.getD i 0, canonNext ring vs.length i⟩)

/-- The list record of a freshly built list: head at address 0, tail at the
last address once a second element exists. -/
def canonGoList (ring : Bool) (vs : List Int) : GoList :=
  ⟨if vs.length = 0 then none else some 0,
   if vs.length ≤ 1 then none else some (vs.length - 1),
   ring⟩

/-- The walk of `LinkedList.Print` (`linked_list.go` 196-205): from
`head.next`, stop at nil or when back at the head. -/
def walkAddrs (h : Heap) (headAddr : Nat) : Option Nat → Nat → List Nat
  | _, 0 => []
  | none, _ + 1 => []
  | some a, fuel + 1 =>
    if a = headAddr then []
    else a :: walkAddrs h headAddr (nextAt h a) fuel

/-- The addresses reachable from `head` in order, by the traversal
convention shared by `Contains` and `Print`: follow `next` until nil or
until the head is revisited. -/
def listAddrs (h : Heap) (l : GoList) (fuel : Nat) : List Nat :=
  match l.head with
  | none => []
  | some hd => hd :: walkAddrs h hd (nextAt h hd) fuel

/-- Whether the gate is held when event `e` happens in trace `tr`: the
gate acquisition precedes `e` and the release follows it. -/
def gateHeldAt (tr : List GateEv) (e : GateEv) : Prop :=
  tr.indexOf GateEv.acquireGate < tr.indexOf e ∧
    tr.indexOf e < tr.indexOf GateEv.releaseGate

/-! # Claims -/

/-- **C1, counterexample.**  The claim says that when the key already
exists, the creation gate is released before the call falls through to
`KeyLock`.  In the source the release is a `defer`, which fires only when
`CreateKeyAndLock` returns — after the fall-through `KeyLock` call — so in
the exists-branch trace the release does not precede the `KeyLock` call:
the gate is in fact held across it. -/
theorem createKeyAndLock_gate_not_released_before_fallthrough :
    ¬ ((createKeyAndLockTrace true).indexOf GateEv.releaseGate <
        (createKeyAndLockTrace true).indexOf GateEv.keyLockBegin) ∧
    gateHeldAt (createKeyAndLockTrace true) GateEv.keyLockBegin ∧
    gateHeldAt (createKeyAndLockTrace true) GateEv.keyLockEnd := by
  refine ⟨?_, ⟨?_, ?_⟩, ⟨?_, ?_⟩⟩ <;> decide

/-- **C1, amended.**  `CreateKeyAndLock` releases the creation gate only
when it returns (deferred unlock): when the key is absent the gate spans
exactly the lock-table mutation, but when the key exists the gate is held
across the entire fall-through `KeyLock(ctx, key)` call — a user operation
that can poll until the caller's deadline. -/
theorem createKeyAndLock_gate_held_until_return :
    createKeyAndLockTrace false =
      [GateEv.acquireGate, GateEv.installLock, GateEv.releaseGate] ∧
    createKeyAndLockTrace true =
      [GateEv.acquireGate, GateEv.keyLockBegin, GateEv.keyLockEnd,
        GateEv.releaseGate] ∧
    gateHeldAt (createKeyAndLockTrace false) GateEv.installLock ∧
    gateHeldAt (createKeyAndLockTrace true) GateEv.keyLockBegin ∧
    gateHeldAt (createKeyAndLockTrace true) GateEv.keyLockEnd := by
  refine ⟨rfl, rfl, ⟨?_, ?_⟩, ⟨?_, ?_⟩, ⟨?_, ?_⟩⟩ <;> decide

/-- **C10.**  The lock operations are total only on keys whose lock entry
exists: on a key with no entry in `keyLocks`, `KeyLock` and `KeyRLock`
(entered with a live context) dereference the nil mutex pointer and fault
instead of returning a failure value, and `KeyUnlock`/`KeyRUnlock` fault
unconditionally; `KeyExists` reports `false` for exactly these keys. -/
theorem missing_key_lock_ops_fault
    (locks : String → Option Unit) (key : String)
    (avail availR done : Nat → Bool) (cause : List Nat) (fuel : Nat)
    (hnone : locks key = none) (hlive : done 0 = false) :
    keyLockRun locks key avail done cause (fuel + 1) 0 =
      some (.fault .nilDeref) ∧
    keyRLockRun locks key availR done cause (fuel + 1) 0 =
      some (.fault .nilDeref) ∧
    keyUnlockRun locks key = .error .nilDeref ∧
    keyRUnlockRun locks key = .error .nilDeref ∧
    keyExistsRun locks key = false := by
  refine ⟨?_, ?_, ?_, ?_, ?_⟩ <;>
    simp [keyLockRun, keyRLockRun, keyUnlockRun, keyRUnlockRun, keyExistsRun,
      hnone, hlive]

/-- **C10, witness.** -/
theorem missing_key_lock_ops_fault_witness :
    keyLockRun (fun _ => none) "k" (fun _ => true) (fun _ => false) [] 1 0 =
      some (.fault .nilDeref) ∧
    keyRLockRun (fun _ => none) "k" (fun _ => true) (fun _ => false) [] 1 0 =
      some (.fault .nilDeref) ∧
    keyUnlockRun (fun _ => none) "k" = .error .nilDeref ∧
    keyRUnlockRun (fun _ => none) "k" = .error .nilDeref ∧
    keyExistsRun (fun _ => none) "k" = false :=
  missing_key_lock_ops_fault (fun _ => none) "k"
    (fun _ => true) (fun _ => true) (fun _ => false) [] 0 rfl rfl

/-- Case folding absorbs upper-casing. -/
theorem foldByte_upperByte (b : Nat) : foldByte (upperByte b) = foldByte b := by
  unfold foldByte upperByte
  split_ifs <;> omega

/-- Case folding absorbs lower-casing. -/
theorem foldByte_lowerByte (b : Nat) : foldByte (lowerByte b) = foldByte b := by
  unfold foldByte lowerByte
  split_ifs <;> omega

/-- Folding a name is invariant under upper-casing it. -/
theorem map_foldByte_upperName (s : List Nat) :
    (upperName s).map foldByte = s.map foldByte := by
  unfold upperName
  rw [List.map_map]
  exact List.map_congr_left fun b _ => foldByte_upperByte b

/-- Folding a name is invariant under lower-casing it. -/
theorem map_foldByte_lowerName (s : List Nat) :
    (lowerName s).map foldByte = s.map foldByte := by
  unfold lowerName
  rw [List.map_map]
  exact List.map_congr_left fun b _ => foldByte_lowerByte b

/-- `EqualFold` compares the queried name only through its fold. -/
theorem eqFold_upperName (k s : List Nat) :
    eqFold k (upperName s) = eqFold k s := by
  unfold eqFold
  rw [map_foldByte_upperName]

theorem eqFold_lowerName (k s : List Nat) :
    eqFold k (lowerName s) = eqFold k s := by
  unfold eqFold
  rw [map_foldByte_lowerName]

/-- **C3, counterexample.**  A Go map iterates in unspecified order and
every `getCommand` call scans `server.commands` independently; two
association lists that are permutations of each other present the same map
in two admissible iteration orders.  With the case-variant registrations of
C2 in the map (`GET ↦ c₁`, `get ↦ c₂`), both entries `EqualFold`-match both
spellings, so one scan order answers the upper-cased lookup with the first
command while another answers the lower-cased lookup with the second: the
two lookups of the claim need not return the same command. -/
theorem getCommand_case_variant_scans_disagree :
    List.Perm
      [(bytes "GET", (⟨⟨bytes "GET", false⟩⟩ : ServerCommand)),
        (bytes "get", ⟨⟨bytes "get", true⟩⟩)]
      [(bytes "get", (⟨⟨bytes "get", true⟩⟩ : ServerCommand)),
        (bytes "GET", ⟨⟨bytes "GET", false⟩⟩)] ∧
    getCommand
      [(bytes "GET", ⟨⟨bytes "GET", false⟩⟩),
        (bytes "get", ⟨⟨bytes "get", true⟩⟩)]
      (upperName (bytes "get")) = .ok ⟨⟨bytes "GET", false⟩⟩ ∧
    getCommand
      [(bytes "get", ⟨⟨bytes "get", true⟩⟩),
        (bytes "GET", ⟨⟨bytes "GET", false⟩⟩)]
      (lowerName (bytes "get")) = .ok ⟨⟨bytes "get", true⟩⟩ ∧
    (⟨⟨bytes "GET", false⟩⟩ : ServerCommand) ≠ ⟨⟨bytes "get", true⟩⟩ :=
  ⟨List.Perm.swap _ _ _, rfl, rfl, by decide⟩

/-- `EqualFold` holds exactly when the folded names coincide. -/
theorem eqFold_iff (a b : List Nat) :
    eqFold a b = true ↔ a.map foldByte = b.map foldByte := by
  unfold eqFold
  exact beq_iff_eq

/-- `EqualFold` is reflexive. -/
theorem eqFold_refl (a : List Nat) : eqFold a a = true :=
  (eqFold_iff a a).mpr rfl

/-- **C3, amended.**  Registry lookup is case-insensitive in the sense that
survives the unordered map: for any two iteration orders `m₁`, `m₂` of the
same registry (`m₁.Perm m₂` — each `getCommand` call scans the map
independently), the upper-cased and the lower-cased lookup fail together,
and — provided no two registered entries carry case-insensitively equal
names, as in the startup registry — they return the same command.  With
case-variant duplicate names the two independent scans may return
different commands (see the counterexample). -/
theorem getCommand_case_insensitive_unordered
    (m₁ m₂ : Registry) (n : List Nat) (hperm : List.Perm m₁ m₂)
    (hnodup : ∀ p ∈ m₁, ∀ q ∈ m₁, eqFold p.1 q.1 = true → p = q) :
    (∃ c, getCommand m₁ (upperName n) = .ok c ∧
          getCommand m₂ (lowerName n) = .ok c) ∨
    ((∃ e, getCommand m₁ (upperName n) = .error e) ∧
     (∃ e, getCommand m₂ (lowerName n) = .error e)) := by
  have hup : (fun p : List Nat × ServerCommand => eqFold p.1 (upperName n))
      = fun p => eqFold p.1 n := funext fun p => eqFold_upperName p.1 n
  have hlow : (fun p : List Nat × ServerCommand => eqFold p.1 (lowerName n))
      = fun p => eqFold p.1 n := funext fun p => eqFold_lowerName p.1 n
  unfold getCommand
  rw [hup, hlow]
  cases h1 : m₁.find? (fun p => eqFold p.1 n) with
  | none =>
    have h2 : m₂.find? (fun p => eqFold p.1 n) = none := by
      rw [List.find?_eq_none] at h1 ⊢
      intro p hp
      exact h1 p (hperm.mem_iff.mpr hp)
    rw [h2]
    exact Or.inr ⟨⟨_, rfl⟩, ⟨_, rfl⟩⟩
  | some p₁ =>
    have hp₁mem : p₁ ∈ m₁ := List.mem_of_find?_eq_some h1
    have hp₁ : eqFold p₁.1 n = true := by
      have := List.find?_some h1
      simpa using this
    have h2 : (m₂.find? (fun p => eqFold p.1 n)).isSome := by
      rw [List.find?_isSome]
      exact ⟨p₁, hperm.mem_iff.mp hp₁mem, hp₁⟩
    obtain ⟨p₂, h3⟩ := Option.isSome_iff_exists.mp h2
    have hp₂mem : p₂ ∈ m₁ := hperm.mem_iff.mpr (List.mem_of_find?_eq_some h3)
    have hp₂ : eqFold p₂.1 n = true := by
      have := List.find?_some h3
      simpa using this
    have heq : p₁ = p₂ := by
      apply hnodup p₁ hp₁mem p₂ hp₂mem
      rw [eqFold_iff] at hp₁ hp₂ ⊢
      rw [hp₁, hp₂]
    rw [h3, ← heq]
    exact Or.inl ⟨p₁.2, rfl, rfl⟩

/-- **C3, amended, witness.**  A duplicate-free registry scanned in two
different orders: both casings of the name find the same command. -/
theorem getCommand_case_insensitive_unordered_witness :
    (∃ c, getCommand
        [(bytes "SET", (⟨⟨bytes "SET", true⟩⟩ : ServerCommand)),
          (bytes "GET", ⟨⟨bytes "GET", false⟩⟩)]
        (upperName (bytes "get")) = .ok c ∧
      getCommand
        [(bytes "GET", (⟨⟨bytes "GET", false⟩⟩ : ServerCommand)),
          (bytes "SET", ⟨⟨bytes "SET", true⟩⟩)]
        (lowerName (bytes "get")) = .ok c) ∨
    ((∃ e, getCommand
        [(bytes "SET", (⟨⟨bytes "SET", true⟩⟩ : ServerCommand)),
          (bytes "GET", ⟨⟨bytes "GET", false⟩⟩)]
        (upperName (bytes "get")) = .error e) ∧
     (∃ e, getCommand
        [(bytes "GET", (⟨⟨bytes "GET", false⟩⟩ : ServerCommand)),
          (bytes "SET", ⟨⟨bytes "SET", true⟩⟩)]
        (lowerName (bytes "get")) = .error e)) :=
  getCommand_case_insensitive_unordered _ _ (bytes "get")
    (List.Perm.swap _ _ _) (by decide)

/-- **C2, counterexample.**  Registering `get` after `GET` does not make a
lookup of `GET` return the second command: the two spellings are distinct
map keys, so both entries stay in `server.commands`, and the scan in
`getCommand` (Go map iteration, modelled in insertion order — one
admissible order of an unspecified-order iteration) can meet the first
registration first. -/
theorem loadCommands_case_variant_not_overridden :
    getCommand
      (loadCommands (loadCommands [] [⟨bytes "GET", false⟩])
        [⟨bytes "get", true⟩])
      (bytes "GET") = .ok ⟨⟨bytes "GET", false⟩⟩ ∧
    (⟨⟨bytes "GET", false⟩⟩ : ServerCommand) ≠ ⟨⟨bytes "get", true⟩⟩ := by
  exact ⟨rfl, by decide⟩

/-- **C2, amended.**  Command registration inserts under the exact name
string.  Last registration wins for byte-identical names: if no other
registered name is case-insensitively equal to `c.Command`, then after
registering `c` and then `c\'` under the same name string, every lookup of
that name — in any casing `q` — returns `c\'`.  When the two registrations
differ in case, both entries remain in the map and the lookup can return
the first (see the counterexample). -/
theorem loadCommands_exact_name_last_wins
    (m : Registry) (c c' : CommandRec) (q : List Nat)
    (hname : c'.Command = c.Command)
    (hm : ∀ p ∈ m, eqFold p.1 c.Command = false)
    (hq : eqFold c.Command q = true) :
    getCommand (loadCommands (loadCommands m [c]) [c']) q = .ok ⟨c'⟩ := by
  have hne : ∀ p ∈ m, (p.1 == c.Command) = false := by
    intro p hp
    rw [beq_eq_false_iff_ne]
    intro heq
    have hfalse := hm p hp
    rw [heq, eqFold_refl] at hfalse
    simp at hfalse
  have h1 : loadCommands m [c] = m ++ [(c.Command, ⟨c⟩)] := by
    show mapAssign m c.Command (⟨c⟩ : ServerCommand) = _
    unfold mapAssign
    have hany : m.any (fun p => p.1 == c.Command) = false := by
      rw [List.any_eq_false]
      intro p hp
      simp [hne p hp]
    rw [hany]
    simp
  have h2 : loadCommands (loadCommands m [c]) [c'] =
      m ++ [(c.Command, ⟨c'⟩)] := by
    rw [h1]
    show mapAssign (m ++ [(c.Command, (⟨c⟩ : ServerCommand))]) c'.Command (⟨c'⟩ : ServerCommand) = _
    rw [hname]
    unfold mapAssign
    have hany : (m ++ [(c.Command, (⟨c⟩ : ServerCommand))]).any
        (fun p => p.1 == c.Command) = true := by
      simp
    rw [hany]
    rw [if_pos rfl, List.map_append]
    congr 1
    · refine (List.map_congr_left ?_).trans (List.map_id m)
      intro p hp
      simp [hne p hp]
    · simp
  rw [h2]
  unfold getCommand
  have hfold : c.Command.map foldByte = q.map foldByte := (eqFold_iff _ _).mp hq
  have hmnone : m.find? (fun p => eqFold p.1 q) = none := by
    rw [List.find?_eq_none]
    intro p hp hcontra
    have h3 : p.1.map foldByte = q.map foldByte := (eqFold_iff _ _).mp hcontra
    have h4 : eqFold p.1 c.Command = true :=
      (eqFold_iff _ _).mpr (by rw [h3, hfold])
    rw [hm p hp] at h4
    simp at h4
  rw [List.find?_append, hmnone]
  simp [List.find?, hq]

/-- **C2, amended, witness.** -/
theorem loadCommands_exact_name_last_wins_witness :
    getCommand
      (loadCommands (loadCommands [] [⟨bytes "SET", false⟩])
        [⟨bytes "SET", true⟩])
      (bytes "set") = .ok ⟨⟨bytes "SET", true⟩⟩ :=
  loadCommands_exact_name_last_wins [] ⟨bytes "SET", false⟩ ⟨bytes "SET", true⟩
    (bytes "set") rfl (by intro p hp; cases hp) (by decide)

/-- One unfolding of the `KeyLock` polling loop. -/
theorem keyLockRun_succ (locks : String → Option Unit) (key : String)
    (avail done : Nat → Bool) (cause : List Nat) (fuel t : Nat) :
    keyLockRun locks key avail done cause (fuel + 1) t =
      if done t then some (.cancelled cause)
      else
        match locks key with
        | none => some (.fault .nilDeref)
        | some _ =>
          if avail t then some .acquired
          else keyLockRun locks key avail done cause fuel (t + tickMs) := rfl

/-- One unfolding of the `KeyRLock` polling loop. -/
theorem keyRLockRun_succ (locks : String → Option Unit) (key : String)
    (avail done : Nat → Bool) (cause : List Nat) (fuel t : Nat) :
    keyRLockRun locks key avail done cause (fuel + 1) t =
      if done t then some (.cancelled cause)
      else
        match locks key with
        | none => some (.fault .nilDeref)
        | some _ =>
          if avail t then some .acquired
          else keyRLockRun locks key avail done cause fuel (t + tickMs) := rfl

/-- Polling skip: while the context stays live and the lock stays taken,
each iteration of `KeyLock` consumes one unit of fuel and moves the clock
one ticker period. -/
theorem keyLockRun_skip (locks : String → Option Unit) (key : String)
    (avail done : Nat → Bool) (cause : List Nat) (hk : locks key = some ()) :
    ∀ (k fuel t : Nat),
      (∀ s, s < k → done (t + tickMs * s) = false ∧
        avail (t + tickMs * s) = false) →
      keyLockRun locks key avail done cause (k + fuel) t =
        keyLockRun locks key avail done cause fuel (t + tickMs * k) := by
  intro k
  induction k with
  | zero => intro fuel t _; simp
  | succ k ih =>
    intro fuel t h
    have h0 := h 0 (Nat.succ_pos k)
    rw [Nat.mul_zero, Nat.add_zero] at h0
    have e : k + 1 + fuel = (k + fuel) + 1 := by omega
    rw [e, keyLockRun_succ, h0.1, hk]
    simp only [Bool.false_eq_true, if_false, h0.2]
    rw [ih fuel (t + tickMs) ?_]
    · congr 1
      rw [Nat.mul_succ]
      omega
    · intro s hs
      have h' := h (s + 1) (by omega)
      have harg : t + tickMs * (s + 1) = t + tickMs + tickMs * s := by
        rw [Nat.mul_succ]
        omega
      rw [harg] at h'
      exact h'

/-- Polling skip for `KeyRLock`. -/
theorem keyRLockRun_skip (locks : String → Option Unit) (key : String)
    (avail done : Nat → Bool) (cause : List Nat) (hk : locks key = some ()) :
    ∀ (k fuel t : Nat),
      (∀ s, s < k → done (t + tickMs * s) = false ∧
        avail (t + tickMs * s) = false) →
      keyRLockRun locks key avail done cause (k + fuel) t =
        keyRLockRun locks key avail done cause fuel (t + tickMs * k) := by
  intro k
  induction k with
  | zero => intro fuel t _; simp
  | succ k ih =>
    intro fuel t h
    have h0 := h 0 (Nat.succ_pos k)
    rw [Nat.mul_zero, Nat.add_zero] at h0
    have e : k + 1 + fuel = (k + fuel) + 1 := by omega
    rw [e, keyRLockRun_succ, h0.1, hk]
    simp only [Bool.false_eq_true, if_false, h0.2]
    rw [ih fuel (t + tickMs) ?_]
    · congr 1
      rw [Nat.mul_succ]
      omega
    · intro s hs
      have h' := h (s + 1) (by omega)
      have harg : t + tickMs * (s + 1) = t + tickMs + tickMs * s := by
        rw [Nat.mul_succ]
        omega
      rw [harg] at h'
      exact h'

/-- **C6.**  For an existing key, `KeyLock` and `KeyRLock` poll the lock on
the 5 ms ticker cadence: attempts happen at times `0, tickMs, 2*tickMs, …`.
If the first `t` attempts find the lock taken (context live), then at
attempt `t`: if the context has been cancelled the call returns the failure
carrying the context's cancellation cause; otherwise, if the lock is
available, it returns acquired.  With `t = 0` this is the non-blocking
case: an immediately available lock is acquired at the very first attempt,
with no ticker wait. -/
theorem keyLock_polls_until_acquired_or_cancelled
    (locks : String → Option Unit) (key : String)
    (avail availR done : Nat → Bool) (cause : List Nat) (t fuel : Nat)
    (hk : locks key = some ())
    (hbusy : ∀ s, s < t → done (tickMs * s) = false ∧
      avail (tickMs * s) = false)
    (hbusyR : ∀ s, s < t → done (tickMs * s) = false ∧
      availR (tickMs * s) = false) :
    ((done (tickMs * t) = true →
        keyLockRun locks key avail done cause (t + (fuel + 1)) 0 =
          some (.cancelled cause)) ∧
      (done (tickMs * t) = false → avail (tickMs * t) = true →
        keyLockRun locks key avail done cause (t + (fuel + 1)) 0 =
          some .acquired)) ∧
    ((done (tickMs * t) = true →
        keyRLockRun locks key availR done cause (t + (fuel + 1)) 0 =
          some (.cancelled cause)) ∧
      (done (tickMs * t) = false → availR (tickMs * t) = true →
        keyRLockRun locks key availR done cause (t + (fuel + 1)) 0 =
          some .acquired)) := by
  have hskip := keyLockRun_skip locks key avail done cause hk t (fuel + 1) 0
    (by intro s hs; simpa using hbusy s hs)
  have hskipR := keyRLockRun_skip locks key availR done cause hk t (fuel + 1) 0
    (by intro s hs; simpa using hbusyR s hs)
  rw [Nat.zero_add] at hskip hskipR
  constructor
  · constructor
    · intro hdone
      rw [hskip, keyLockRun_succ, hdone]
      simp
    · intro hdone havail
      rw [hskip, keyLockRun_succ, hdone, hk]
      simp [havail]
  · constructor
    · intro hdone
      rw [hskipR, keyRLockRun_succ, hdone]
      simp
    · intro hdone havail
      rw [hskipR, keyRLockRun_succ, hdone, hk]
      simp [havail]

/-- **C6, witness.**  A key whose lock is free at time 0 and a live
context: both `KeyLock` and `KeyRLock` acquire at the first attempt;
with a context already cancelled at the first attempt, both surface the
context's cause. -/
theorem keyLock_polls_witness :
    keyLockRun (fun _ => some ()) "k" (fun _ => true) (fun _ => false)
      (bytes "ctx cancelled") 1 0 = some .acquired ∧
    keyRLockRun (fun _ => some ()) "k" (fun _ => true) (fun _ => false)
      (bytes "ctx cancelled") 1 0 = some .acquired ∧
    keyLockRun (fun _ => some ()) "k" (fun _ => true) (fun _ => true)
      (bytes "ctx cancelled") 1 0 =
      some (.cancelled (bytes "ctx cancelled")) := by
  refine ⟨?_, ?_, ?_⟩
  · exact (keyLock_polls_until_acquired_or_cancelled (fun _ => some ()) "k"
      (fun _ => true) (fun _ => true) (fun _ => false) (bytes "ctx cancelled")
      0 0 rfl (by intro s hs; omega) (by intro s hs; omega)).1.2 rfl rfl
  · exact (keyLock_polls_until_acquired_or_cancelled (fun _ => some ()) "k"
      (fun _ => true) (fun _ => true) (fun _ => false) (bytes "ctx cancelled")
      0 0 rfl (by intro s hs; omega) (by intro s hs; omega)).2.2 rfl rfl
  · exact (keyLock_polls_until_acquired_or_cancelled (fun _ => some ()) "k"
      (fun _ => true) (fun _ => true) (fun _ => true) (bytes "ctx cancelled")
      0 0 rfl (by intro s hs; omega) (by intro s hs; omega)).1.1 rfl

/-- **C4.**  A decoded, authorized command with effective sync flag `true`,
arriving while the node is clustered but not the consensus leader, is
answered with the not-leader error line (terminated `\r\n` plus the
dispatcher's historical extra `\n`, cf. C9): the handler is not invoked
locally and nothing is submitted to the consensus log (`raft.Apply` is
never reached; the request is marshalled first, which for this
string-only payload always succeeds — hypothesis `hb`). -/
theorem dispatch_not_leader_rejects
    (env : DispatchEnv) (c0 : List Nat) (rest : List (List Nat))
    (command : ServerCommand) (b : List Nat)
    (hdec : env.decoded = .ok (c0 :: rest))
    (hcmd : getCommand env.registry c0 = .ok command)
    (hacl : env.aclError = none)
    (hsync : effSync env command = true)
    (hclu : env.inCluster = true)
    (hldr : env.isLeader = false)
    (hb : env.marshal = .ok b) :
    dispatchStep env =
      ⟨.notLeader,
        bytes "-Error not cluster leader, cannot carry out command" ++ crlfLf,
        false, true, false⟩ := by
  obtain ⟨dec, reg, sub, acl, clu, ldr, hres, mar, aerr, aok, aresp, atext⟩ := env
  simp only at hdec hcmd hacl hsync hclu hldr hb
  subst hdec hacl hclu hldr hb
  unfold effSync at hsync
  simp only at hsync
  cases sub with
  | none => simp only at hsync; simp [dispatchStep, hcmd, hsync]
  | some sc => simp only at hsync; simp [dispatchStep, hcmd, hsync]

/-- **C4, witness.** -/
theorem dispatch_not_leader_rejects_witness :
    dispatchStep
      ⟨.ok [bytes "SET", bytes "k", bytes "v"],
        [(bytes "SET", ⟨⟨bytes "SET", true⟩⟩)], none, none, true, false,
        .ok (bytes "+OK"), .ok (bytes "req"), none, true, ⟨none, []⟩, []⟩ =
      ⟨.notLeader,
        bytes "-Error not cluster leader, cannot carry out command" ++ crlfLf,
        false, true, false⟩ :=
  dispatch_not_leader_rejects _ (bytes "SET") [bytes "k", bytes "v"]
    ⟨⟨bytes "SET", true⟩⟩ (bytes "req") rfl rfl rfl rfl rfl rfl rfl

/-- **C5.**  For an authorized command, the handler runs locally exactly
when the node is not clustered or the effective sync flag is false (the
resolved subcommand's `Sync` when one resolves, the command's `Sync`
otherwise); when clustered with the sync flag set the command goes down
the replication section instead of the local handler. -/
theorem dispatch_local_iff_sync
    (env : DispatchEnv) (c0 : List Nat) (rest : List (List Nat))
    (command : ServerCommand)
    (hdec : env.decoded = .ok (c0 :: rest))
    (hcmd : getCommand env.registry c0 = .ok command)
    (hacl : env.aclError = none) :
    ((dispatchStep env).handlerCalled = true ↔
      (env.inCluster = false ∨ effSync env command = false)) ∧
    (env.inCluster = true → effSync env command = true →
      (dispatchStep env).handlerCalled = false ∧
      (dispatchStep env).replicationPath = true) := by
  obtain ⟨dec, reg, sub, acl, clu, ldr, hres, mar, aerr, aok, ⟨arE, arR⟩, atext⟩
    := env
  simp only at hdec hcmd hacl
  subst hdec hacl
  cases sub with
  | none =>
    cases hsy : command.Command.Sync <;> cases clu <;> cases hres <;>
      cases mar <;> cases ldr <;> cases aerr <;> cases aok <;> cases arE <;>
      simp [dispatchStep, effSync, hcmd, hsy]
  | some sc =>
    obtain ⟨scs⟩ := sc
    cases scs <;> cases clu <;> cases hres <;> cases mar <;> cases ldr <;>
      cases aerr <;> cases aok <;> cases arE <;>
      simp [dispatchStep, effSync, hcmd]

/-- **C5, witness.**  A non-clustered node runs the handler locally. -/
theorem dispatch_local_iff_sync_witness :
    (dispatchStep
      ⟨.ok [bytes "GET", bytes "k"],
        [(bytes "GET", ⟨⟨bytes "GET", false⟩⟩)], none, none, false, false,
        .ok (bytes "$1"), .ok [], none, true, ⟨none, []⟩, []⟩).handlerCalled
      = true :=
  (dispatch_local_iff_sync
    ⟨.ok [bytes "GET", bytes "k"],
      [(bytes "GET", ⟨⟨bytes "GET", false⟩⟩)], none, none, false, false,
      .ok (bytes "$1"), .ok [], none, true, ⟨none, []⟩, []⟩
    (bytes "GET") [bytes "k"]
    ⟨⟨bytes "GET", false⟩⟩ rfl rfl rfl).1.mpr (Or.inl rfl)

/-- **C9.**  Every error response written by the dispatcher — decode error,
unknown command, ACL denial, handler error, marshal failure, replication
errors, not-leader rejection — ends with `\r\n` followed by one extra `\n`
(`crlfLf`); successful responses are the handler\'s or the apply future\'s
bytes verbatim, with no suffix appended. -/
theorem dispatch_error_responses (env : DispatchEnv) :
    ((dispatchStep env).tag ≠ DTag.localOk → (dispatchStep env).tag ≠ DTag.replOk →
      (dispatchStep env).tag ≠ DTag.emptyCmd →
      ∃ p, (dispatchStep env).written = p ++ crlfLf) ∧
    ((dispatchStep env).tag = DTag.localOk →
      ∃ res, env.handlerResult = .ok res ∧ (dispatchStep env).written = res) ∧
    ((dispatchStep env).tag = DTag.replOk →
      (dispatchStep env).written = env.applyResp.Response) := by
  obtain ⟨dec, reg, sub, acl, clu, ldr, hres, mar, aerr, aok, ⟨arE, arR⟩, atext⟩
    := env
  cases dec with
  | error e =>
    refine ⟨fun _ _ _ => ?_, by simp [dispatchStep], by simp [dispatchStep]⟩
    simp only [dispatchStep]
    exact ⟨_, rfl⟩
  | ok cmd =>
    cases cmd with
    | nil =>
      exact ⟨fun _ _ h => absurd rfl h, by simp [dispatchStep],
        by simp [dispatchStep]⟩
    | cons c0 rest =>
      cases hg : getCommand reg c0 with
      | error e =>
        refine ⟨fun _ _ _ => ?_, by simp [dispatchStep, hg],
          by simp [dispatchStep, hg]⟩
        simp only [dispatchStep, hg]
        exact ⟨_, rfl⟩
      | ok command =>
        cases acl with
        | some e =>
          refine ⟨fun _ _ _ => ?_, by simp [dispatchStep, hg],
            by simp [dispatchStep, hg]⟩
          simp only [dispatchStep, hg]
          exact ⟨_, rfl⟩
        | none =>
          cases sub with
          | none =>
            cases hsy : command.Command.Sync with
            | false =>
              cases hres <;>
                (refine ⟨?_, ?_, ?_⟩ <;>
                (intros
                 simp [dispatchStep, hg, hsy] at *
                 try first
                   | rfl
                   | exact ⟨_, rfl⟩
                   | exact ⟨_, (List.append_assoc _ _ _).symm⟩
                   | exact ⟨_, rfl, rfl⟩
                 done))
            | true =>
              cases clu with
              | false =>
                cases hres <;>
                  (refine ⟨?_, ?_, ?_⟩ <;>
                (intros
                 simp [dispatchStep, hg, hsy] at *
                 try first
                   | rfl
                   | exact ⟨_, rfl⟩
                   | exact ⟨_, (List.append_assoc _ _ _).symm⟩
                   | exact ⟨_, rfl, rfl⟩
                 done))
              | true =>
                cases mar with
                | error u =>
                  (refine ⟨?_, ?_, ?_⟩ <;>
                (intros
                 simp [dispatchStep, hg, hsy] at *
                 try first
                   | rfl
                   | exact ⟨_, rfl⟩
                   | exact ⟨_, (List.append_assoc _ _ _).symm⟩
                   | exact ⟨_, rfl, rfl⟩
                 done))
                | ok b =>
                  cases ldr with
                  | false =>
                    (refine ⟨?_, ?_, ?_⟩ <;>
                (intros
                 simp [dispatchStep, hg, hsy] at *
                 try first
                   | rfl
                   | exact ⟨_, rfl⟩
                   | exact ⟨_, (List.append_assoc _ _ _).symm⟩
                   | exact ⟨_, rfl, rfl⟩
                 done))
                  | true =>
                    cases aerr with
                    | some e =>
                      (refine ⟨?_, ?_, ?_⟩ <;>
                (intros
                 simp [dispatchStep, hg, hsy] at *
                 try first
                   | rfl
                   | exact ⟨_, rfl⟩
                   | exact ⟨_, (List.append_assoc _ _ _).symm⟩
                   | exact ⟨_, rfl, rfl⟩
                 done))
                    | none =>
                      cases aok with
                      | false =>
                        (refine ⟨?_, ?_, ?_⟩ <;>
                (intros
                 simp [dispatchStep, hg, hsy] at *
                 try first
                   | rfl
                   | exact ⟨_, rfl⟩
                   | exact ⟨_, (List.append_assoc _ _ _).symm⟩
                   | exact ⟨_, rfl, rfl⟩
                 done))
                      | true =>
                        cases arE <;>
                          (refine ⟨?_, ?_, ?_⟩ <;>
                (intros
                 simp [dispatchStep, hg, hsy] at *
                 try first
                   | rfl
                   | exact ⟨_, rfl⟩
                   | exact ⟨_, (List.append_assoc _ _ _).symm⟩
                   | exact ⟨_, rfl, rfl⟩
                 done))
          | some sc =>
            obtain ⟨scs⟩ := sc
            cases scs with
            | false =>
              cases hres <;>
                (refine ⟨?_, ?_, ?_⟩ <;>
                (intros
                 simp [dispatchStep, hg] at *
                 try first
                   | rfl
                   | exact ⟨_, rfl⟩
                   | exact ⟨_, (List.append_assoc _ _ _).symm⟩
                   | exact ⟨_, rfl, rfl⟩
                 done))
            | true =>
              cases clu with
              | false =>
                cases hres <;>
                  (refine ⟨?_, ?_, ?_⟩ <;>
                (intros
                 simp [dispatchStep, hg] at *
                 try first
                   | rfl
                   | exact ⟨_, rfl⟩
                   | exact ⟨_, (List.append_assoc _ _ _).symm⟩
                   | exact ⟨_, rfl, rfl⟩
                 done))
              | true =>
                cases mar with
                | error u =>
                  (refine ⟨?_, ?_, ?_⟩ <;>
                (intros
                 simp [dispatchStep, hg] at *
                 try first
                   | rfl
                   | exact ⟨_, rfl⟩
                   | exact ⟨_, (List.append_assoc _ _ _).symm⟩
                   | exact ⟨_, rfl, rfl⟩
                 done))
                | ok b =>
                  cases ldr with
                  | false =>
                    (refine ⟨?_, ?_, ?_⟩ <;>
                (intros
                 simp [dispatchStep, hg] at *
                 try first
                   | rfl
                   | exact ⟨_, rfl⟩
                   | exact ⟨_, (List.append_assoc _ _ _).symm⟩
                   | exact ⟨_, rfl, rfl⟩
                 done))
                  | true =>
                    cases aerr with
                    | some e =>
                      (refine ⟨?_, ?_, ?_⟩ <;>
                (intros
                 simp [dispatchStep, hg] at *
                 try first
                   | rfl
                   | exact ⟨_, rfl⟩
                   | exact ⟨_, (List.append_assoc _ _ _).symm⟩
                   | exact ⟨_, rfl, rfl⟩
                 done))
                    | none =>
                      cases aok with
                      | false =>
                        (refine ⟨?_, ?_, ?_⟩ <;>
                (intros
                 simp [dispatchStep, hg] at *
                 try first
                   | rfl
                   | exact ⟨_, rfl⟩
                   | exact ⟨_, (List.append_assoc _ _ _).symm⟩
                   | exact ⟨_, rfl, rfl⟩
                 done))
                      | true =>
                        cases arE <;>
                          (refine ⟨?_, ?_, ?_⟩ <;>
                (intros
                 simp [dispatchStep, hg] at *
                 try first
                   | rfl
                   | exact ⟨_, rfl⟩
                   | exact ⟨_, (List.append_assoc _ _ _).symm⟩
                   | exact ⟨_, rfl, rfl⟩
                 done))

/-- **C9, witness.**  A concrete decode error carries the suffix; a
concrete local success is written verbatim. -/
theorem dispatch_error_responses_witness :
    (∃ p, (dispatchStep
      ⟨.error (bytes "bad frame"), [], none, none, false, false,
        .ok [], .ok [], none, true, ⟨none, []⟩, []⟩).written = p ++ crlfLf) ∧
    (dispatchStep
      ⟨.ok [bytes "PING"], [(bytes "PING", ⟨⟨bytes "PING", false⟩⟩)], none,
        none, false, false, .ok (bytes "+PONG"), .ok [], none, true,
        ⟨none, []⟩, []⟩).written = bytes "+PONG" := by
  constructor
  · exact (dispatch_error_responses
      ⟨.error (bytes "bad frame"), [], none, none, false, false,
        .ok [], .ok [], none, true, ⟨none, []⟩, []⟩).1
      (by decide) (by decide) (by decide)
  · obtain ⟨res, hres, hw⟩ := (dispatch_error_responses
      ⟨.ok [bytes "PING"], [(bytes "PING", ⟨⟨bytes "PING", false⟩⟩)], none,
        none, false, false, .ok (bytes "+PONG"), .ok [], none, true,
        ⟨none, []⟩, []⟩).2.1 rfl
    rw [hw]
    cases hres
    rfl

/-- **C7.**  Evaluation of the failing input.  Build a ring list by
`Add(1); Add(2)` — two nodes `0 ↦ (1, next 1)`, `1 ↦ (2, next 0)`, head 0,
tail 1 — and call `Remove(2)`, removing the tail.  The source's
`l.head.next == l.tail` branch (`linked_list.go` 110-117) clears
`head.next` but never repairs `tail`: afterwards the only node reachable
from the head is node 0, yet `tail` still points at the removed node 1
(value 2), and the ring link is gone (`head.next = nil` while `tail` is
non-nil).  A one-node list built by `Add` has `tail = nil`, so the claimed
repair of head/tail fails here; a subsequent `Add` would append through
the dangling tail and leave the new node unreachable from the head. -/
theorem remove_ring_tail_leaves_dangling_tail :
    buildGo true [1, 2] =
      ([⟨1, some 1⟩, ⟨2, some 0⟩], ⟨some 0, some 1, true⟩) ∧
    removeGo (buildGo true [1, 2]).1 (buildGo true [1, 2]).2 2 10 =
      some ([⟨1, none⟩, ⟨2, some 0⟩], ⟨some 0, some 1, true⟩) ∧
    listAddrs [⟨1, none⟩, ⟨2, some 0⟩] ⟨some 0, some 1, true⟩ 10 = [0] ∧
    valueAt [⟨1, none⟩, ⟨2, some 0⟩] 1 = 2 ∧
    (1 : Nat) ∉ listAddrs [⟨1, none⟩, ⟨2, some 0⟩] ⟨some 0, some 1, true⟩ 10 ∧
    buildGo true [1] = ([⟨1, none⟩], ⟨some 0, none, true⟩) := by
  refine ⟨rfl, ?_, rfl, rfl, by decide, rfl⟩
  rfl

theorem canonHeap_length (ring : Bool) (vs : List Int) :
    (canonHeap ring vs).length = vs.length := by
  simp [canonHeap]

theorem canonHeap_getElem (ring : Bool) (vs : List Int) (i : Nat) :
    (canonHeap ring vs)[i]? =
      if i < vs.length then some ⟨vs.getD i 0, canonNext ring vs.length i⟩
      else none := by
  unfold canonHeap
  rcases Nat.lt_or_ge i vs.length with h | h
  · rw [List.getElem?_map, List.getElem?_range h]
    simp [h]
  · rw [List.getElem?_map, List.getElem?_eq_none (by simpa using h)]
    simp [Nat.not_lt.mpr h]

theorem nextAt_canonHeap (ring : Bool) (vs : List Int) (a : Nat)
    (h : a < vs.length) :
    nextAt (canonHeap ring vs) a = canonNext ring vs.length a := by
  unfold nextAt
  rw [canonHeap_getElem]
  simp [h]

theorem valueAt_canonHeap (ring : Bool) (vs : List Int) (a : Nat)
    (h : a < vs.length) :
    valueAt (canonHeap ring vs) a = vs.getD a 0 := by
  unfold valueAt
  rw [canonHeap_getElem]
  simp [h]

theorem setNext_eq_set (h : Heap) (a : Nat) (p : Option Nat) (n : GoNode)
    (hget : h[a]? = some n) :
    setNext h a p = h.set a ⟨n.value, p⟩ := by
  unfold setNext
  rw [hget]

theorem getD_append_left (l₁ l₂ : List Int) (i : Nat) (h : i < l₁.length) :
    (l₁ ++ l₂).getD i 0 = l₁.getD i 0 := by
  simp [List.getD_eq_getElem?_getD, List.getElem?_append, h]

theorem getD_append_last (l : List Int) (v : Int) :
    (l ++ [v]).getD l.length 0 = v := by
  simp [List.getD_eq_getElem?_getD, List.getElem?_concat_length]

theorem append_node_getElem (ring : Bool) (ws : List Int) (v : Int) (i : Nat) :
    (canonHeap ring ws ++ [⟨v, if ring then some 0 else none⟩])[i]? =
      if i < ws.length then some ⟨ws.getD i 0, canonNext ring ws.length i⟩
      else if i = ws.length then some ⟨v, if ring then some 0 else none⟩
      else none := by
  rw [List.getElem?_append, canonHeap_length]
  rcases Nat.lt_trichotomy i ws.length with h | h | h
  · rw [if_pos h, canonHeap_getElem, if_pos h, if_pos h]
  · subst h
    have h1 : ¬ (ws.length < ws.length) := by omega
    rw [if_neg h1, if_neg h1, if_pos rfl, Nat.sub_self]
    rfl
  · have h1 : ¬ (i < ws.length) := by omega
    have h2 : ¬ (i = ws.length) := by omega
    rw [if_neg h1, if_neg h1, if_neg h2]
    exact List.getElem?_eq_none (by simp; omega)

theorem canonHeap_snoc (ring : Bool) (ws : List Int) (v : Int)
    (hm : 1 ≤ ws.length) :
    canonHeap ring (ws ++ [v]) =
      setNext (canonHeap ring ws ++ [⟨v, if ring then some 0 else none⟩])
        (ws.length - 1) (some ws.length) := by
  have hgetA := append_node_getElem ring ws v (ws.length - 1)
  rw [if_pos (show ws.length - 1 < ws.length by omega)] at hgetA
  rw [setNext_eq_set _ _ _ _ hgetA]
  apply List.ext_getElem?
  intro i
  rw [List.getElem?_set, canonHeap_getElem, append_node_getElem]
  simp only [List.length_append, List.length_cons, List.length_nil,
    canonHeap_length, Nat.zero_add]
  split_ifs with ha1 ha2 ha3 ha4 ha5
  · obtain rfl : i = ws.length - 1 := by omega
    simp only [Option.some.injEq, GoNode.mk.injEq]
    refine ⟨getD_append_left ws [v] _ (by omega), ?_⟩
    unfold canonNext
    split_ifs <;> first
      | (congr 1; omega)
      | omega
  · omega
  · simp only [Option.some.injEq, GoNode.mk.injEq]
    refine ⟨getD_append_left ws [v] _ (by omega), ?_⟩
    unfold canonNext
    split_ifs <;> first | rfl | omega
  · obtain rfl : i = ws.length := by omega
    simp only [Option.some.injEq, GoNode.mk.injEq]
    refine ⟨getD_append_last ws v, ?_⟩
    unfold canonNext
    split_ifs <;> first
      | rfl
      | omega
      | simp_all
      | (simp_all; omega)
  · obtain rfl : i = ws.length := by omega
    simp only [Option.some.injEq, GoNode.mk.injEq]
    refine ⟨getD_append_last ws v, ?_⟩
    unfold canonNext
    split_ifs <;> first
      | rfl
      | omega
      | simp_all
      | (simp_all; omega)
  · omega
  · omega
  · rfl
  · omega
  · omega
  · rfl

theorem addGo_canon (ring : Bool) (ws : List Int) (v : Int)
    (hm : 1 ≤ ws.length) :
    addGo (canonHeap ring ws) (canonGoList ring ws) v =
      (canonHeap ring (ws ++ [v]), canonGoList ring (ws ++ [v])) := by
  have hlen := canonHeap_length ring ws
  have hsnoc := canonHeap_snoc ring ws v hm
  have happ : (ws ++ [v]).length = ws.length + 1 := by simp
  have hlist : canonGoList ring (ws ++ [v]) =
      ⟨some 0, some ws.length, ring⟩ := by
    unfold canonGoList
    rw [happ, if_neg (show ¬ (ws.length + 1 = 0) by omega),
      if_neg (show ¬ (ws.length + 1 ≤ 1) by omega)]
    congr 2
  rw [hlist, hsnoc]
  rcases Nat.lt_or_ge ws.length 2 with h2 | h2
  · have hm1 : ws.length = 1 := by omega
    have hcl : canonGoList ring ws = ⟨some 0, none, ring⟩ := by
      unfold canonGoList
      rw [if_neg (show ¬ ws.length = 0 by omega),
        if_pos (show ws.length ≤ 1 by omega)]
    rw [hcl]
    cases ring with
    | false => simp [addGo, hlen, hm1]
    | true => simp [addGo, hlen, hm1]
  · have hcl : canonGoList ring ws = ⟨some 0, some (ws.length - 1), ring⟩ := by
      unfold canonGoList
      rw [if_neg (show ¬ ws.length = 0 by omega),
        if_neg (show ¬ ws.length ≤ 1 by omega)]
    rw [hcl]
    cases ring with
    | false => simp [addGo, hlen]
    | true => simp [addGo, hlen]

theorem buildGo_eq_canon (ring : Bool) (vs : List Int) :
    buildGo ring vs = (canonHeap ring vs, canonGoList ring vs) := by
  induction vs using List.reverseRecOn with
  | nil => rfl
  | append_singleton ws v ih =>
    have h1 : buildGo ring (ws ++ [v]) =
        addGo (buildGo ring ws).1 (buildGo ring ws).2 v := by
      unfold buildGo
      rw [List.foldl_append]
      rfl
    rw [h1, ih]
    rcases ws with _ | ⟨a, t⟩
    · show addGo (canonHeap ring []) (canonGoList ring []) v =
        (canonHeap ring ([] ++ [v]), canonGoList ring ([] ++ [v]))
      rw [show canonHeap ring [] = [] from rfl,
        show canonGoList ring [] = ⟨none, none, ring⟩ from rfl,
        show addGo [] ⟨none, none, ring⟩ v =
          ([⟨v, none⟩], ⟨some 0, none, ring⟩) from rfl, List.nil_append,
        show canonHeap ring [v] = [⟨v, none⟩] from by
          simp [canonHeap, canonNext, List.range_succ],
        show canonGoList ring [v] = ⟨some 0, none, ring⟩ from by
          simp [canonGoList]]
    · exact addGo_canon ring (a :: t) v (by simp)

theorem iterStates_none (h : Heap) (l : GoList) :
    ∀ k, iterStates h l none k = none := by
  intro k
  cases k <;> rfl

theorem iterYields_none (h : Heap) (l : GoList) :
    ∀ k, iterYields h l none k = [] := by
  intro k
  cases k <;> rfl

theorem canonGoList_head (ring : Bool) (vs : List Int) (h : vs ≠ []) :
    (canonGoList ring vs).head = some 0 := by
  unfold canonGoList
  rw [if_neg (by simp [h])]

theorem canonNext_linear (n a : Nat) :
    canonNext false n a = if a + 1 < n then some (a + 1) else none := by
  unfold canonNext
  split_ifs with h1 h2 <;> simp_all

theorem iterStep_linear (vs : List Int) (a : Nat) (h : a < vs.length) :
    iterStep (canonHeap false vs) (canonGoList false vs) a =
      canonNext false vs.length a := by
  unfold iterStep
  have hcond : ¬ ((canonGoList false vs).head = some a ∧
      nextAt (canonHeap false vs) a = none ∧
      (canonGoList false vs).ring = true) := by
    intro hc
    have := hc.2.2
    simp [canonGoList] at this
  rw [if_neg hcond, nextAt_canonHeap false vs a h]

theorem iterStep_ring (vs : List Int) (a : Nat) (h : a < vs.length) :
    iterStep (canonHeap true vs) (canonGoList true vs) a =
      some (if a + 1 < vs.length then a + 1 else 0) := by
  have hne : vs ≠ [] := by
    intro hv
    rw [hv] at h
    simp at h
  by_cases hcond : (canonGoList true vs).head = some a ∧
      nextAt (canonHeap true vs) a = none ∧ (canonGoList true vs).ring = true
  · have ha0 : a = 0 := by
      have h1 := hcond.1
      rw [canonGoList_head true vs hne] at h1
      simp at h1
      omega
    have hn1 : vs.length = 1 := by
      have h2 := hcond.2.1
      rw [nextAt_canonHeap true vs a h] at h2
      unfold canonNext at h2
      by_contra hcon
      have h2' : (true : Bool) ∧ 2 ≤ vs.length := ⟨rfl, by omega⟩
      by_cases hlt : a + 1 < vs.length
      · rw [if_pos hlt] at h2
        cases h2
      · rw [if_neg hlt, if_pos h2'] at h2
        cases h2
    unfold iterStep
    rw [if_pos hcond, ha0, if_neg (show ¬ (0 + 1 < vs.length) by omega)]
  · have h2 : 2 ≤ vs.length ∨ a + 1 < vs.length := by
      by_contra hcon
      push_neg at hcon
      apply hcond
      have ha0 : a = 0 := by omega
      have hpred : ¬ ((true : Bool) ∧ 2 ≤ vs.length) := by
        intro hx
        omega
      refine ⟨?_, ?_, rfl⟩
      · rw [canonGoList_head true vs hne, ha0]
      · rw [nextAt_canonHeap true vs a h]
        unfold canonNext
        rw [if_neg (show ¬ (a + 1 < vs.length) by omega), if_neg hpred]
    unfold iterStep
    rw [if_neg hcond, nextAt_canonHeap true vs a h]
    unfold canonNext
    by_cases h1 : a + 1 < vs.length
    · rw [if_pos h1, if_pos h1]
    · have h2' : 2 ≤ vs.length := by
        rcases h2 with h2 | h2
        · exact h2
        · omega
      rw [if_neg h1, if_neg h1,
        if_pos (show (true : Bool) ∧ 2 ≤ vs.length from ⟨rfl, h2'⟩)]

theorem iterStates_linear (vs : List Int) :
    ∀ (k a : Nat), a < vs.length → vs.length - a ≤ k →
      iterStates (canonHeap false vs) (canonGoList false vs) (some a) k =
        none := by
  intro k
  induction k with
  | zero =>
    intro a ha hk
    omega
  | succ k ih =>
    intro a ha hk
    show iterStates _ _ (iterStep _ _ a) k = none
    rw [iterStep_linear vs a ha, canonNext_linear]
    by_cases h1 : a + 1 < vs.length
    · rw [if_pos h1]
      exact ih (a + 1) h1 (by omega)
    · rw [if_neg h1]
      exact iterStates_none _ _ k

theorem iterYields_linear (vs : List Int) :
    ∀ (k a : Nat), a < vs.length → vs.length - a ≤ k →
      iterYields (canonHeap false vs) (canonGoList false vs) (some a) k =
        List.range' a (vs.length - a) := by
  intro k
  induction k with
  | zero =>
    intro a ha hk
    omega
  | succ k ih =>
    intro a ha hk
    show a :: iterYields _ _ (iterStep _ _ a) k = _
    rw [iterStep_linear vs a ha, canonNext_linear]
    have hsplit : vs.length - a = (vs.length - (a + 1)) + 1 := by omega
    rw [hsplit, List.range'_succ]
    by_cases h1 : a + 1 < vs.length
    · rw [if_pos h1, ih (a + 1) h1 (by omega)]
    · rw [if_neg h1, iterYields_none,
        show vs.length - (a + 1) = 0 by omega]
      rfl

theorem iter_ring_invariant (vs : List Int) :
    ∀ (k a : Nat), a < vs.length →
      (∃ b, iterStates (canonHeap true vs) (canonGoList true vs) (some a) k =
          some b ∧ b < vs.length) ∧
      (iterYields (canonHeap true vs) (canonGoList true vs) (some a) k).length
        = k ∧
      ∀ y ∈ iterYields (canonHeap true vs) (canonGoList true vs) (some a) k,
        y < vs.length := by
  intro k
  induction k with
  | zero =>
    intro a ha
    exact ⟨⟨a, rfl, ha⟩, rfl, by intro y hy; cases hy⟩
  | succ k ih =>
    intro a ha
    have hstep := iterStep_ring vs a ha
    have hna : (if a + 1 < vs.length then a + 1 else 0) < vs.length := by
      split_ifs with h1
      · exact h1
      · omega
    obtain ⟨h1, h2, h3⟩ := ih _ hna
    refine ⟨?_, ?_, ?_⟩
    · show ∃ b, iterStates _ _ (iterStep _ _ a) k = some b ∧ b < vs.length
      rw [hstep]
      exact h1
    · show (a :: iterYields _ _ (iterStep _ _ a) k).length = k + 1
      rw [hstep]
      simp [h2]
    · intro y hy
      rw [show iterYields (canonHeap true vs) (canonGoList true vs) (some a)
          (k + 1) = a :: iterYields (canonHeap true vs) (canonGoList true vs)
          (iterStep (canonHeap true vs) (canonGoList true vs) a) k from rfl,
        hstep] at hy
      rcases List.mem_cons.mp hy with hy | hy
      · omega
      · exact h3 y hy

theorem map_valueAt_range (ring : Bool) (vs : List Int) :
    (List.range vs.length).map (valueAt (canonHeap ring vs)) = vs := by
  apply List.ext_getElem (by simp)
  intro i h1 h2
  rw [List.getElem_map, List.getElem_range,
    valueAt_canonHeap ring vs i (by simpa using h2)]
  rw [List.getD_eq_getElem?_getD, List.getElem?_eq_getElem h2]
  rfl

/-- **C8.**  On a freshly built list, `Iter` behaves as claimed: in linear
mode it sends every node exactly once, from head (address 0) to tail
(address `n-1`), in order — the yielded addresses are `range n`, their
values are the added values in order — and then the loop exits (state
`none`, channel closed).  In ring mode, on any non-empty list — including
the single-node ring, where the `n == l.head && n.next == nil && l.ring`
condition re-sends the head forever — the loop never exits: after any
number of iterations the state is still a live node of the list, exactly
`k` nodes have been sent after `k` iterations, and every sent address is a
node of the list. -/
theorem iter_linear_finite_ring_infinite (vs : List Int) :
    (∀ k, vs.length ≤ k →
      iterYields (buildGo false vs).1 (buildGo false vs).2
          ((buildGo false vs).2.head) k = List.range vs.length ∧
      (List.range vs.length).map (valueAt (buildGo false vs).1) = vs ∧
      iterStates (buildGo false vs).1 (buildGo false vs).2
          ((buildGo false vs).2.head) k = none) ∧
    (vs ≠ [] → ∀ k,
      (∃ b, iterStates (buildGo true vs).1 (buildGo true vs).2
          ((buildGo true vs).2.head) k = some b ∧ b < vs.length) ∧
      (iterYields (buildGo true vs).1 (buildGo true vs).2
          ((buildGo true vs).2.head) k).length = k ∧
      ∀ y ∈ iterYields (buildGo true vs).1 (buildGo true vs).2
          ((buildGo true vs).2.head) k, y < vs.length) := by
  rw [buildGo_eq_canon false vs, buildGo_eq_canon true vs]
  dsimp only
  constructor
  · intro k hk
    by_cases hvs : vs = []
    · subst hvs
      refine ⟨?_, ?_, ?_⟩ <;>
        simp [canonGoList, iterYields_none, iterStates_none]
    · have hlen : 0 < vs.length := List.length_pos.mpr hvs
      rw [canonGoList_head false vs hvs]
      refine ⟨?_, map_valueAt_range false vs, ?_⟩
      · rw [iterYields_linear vs k 0 (by omega) (by omega), Nat.sub_zero,
          List.range_eq_range']
      · exact iterStates_linear vs k 0 (by omega) (by omega)
  · intro hvs k
    have hlen : 0 < vs.length := List.length_pos.mpr hvs
    rw [canonGoList_head true vs hvs]
    exact iter_ring_invariant vs k 0 (by omega)

/-- **C8, witness.**  The linear list `[7, 9]` yields addresses `[0, 1]`
and stops; the one-node ring `[5]` is still live after 3 iterations. -/
theorem iter_linear_finite_ring_infinite_witness :
    iterYields (buildGo false [7, 9]).1 (buildGo false [7, 9]).2
        ((buildGo false [7, 9]).2.head) 2 = [0, 1] ∧
    iterStates (buildGo false [7, 9]).1 (buildGo false [7, 9]).2
        ((buildGo false [7, 9]).2.head) 2 = none ∧
    (∃ b, iterStates (buildGo true [5]).1 (buildGo true [5]).2
        ((buildGo true [5]).2.head) 3 = some b ∧ b < 1) := by
  refine ⟨?_, ?_, ?_⟩
  · have h := (iter_linear_finite_ring_infinite [7, 9]).1 2 (by decide)
    rw [h.1]
    rfl
  · exact ((iter_linear_finite_ring_infinite [7, 9]).1 2 (by decide)).2.2
  · exact ((iter_linear_finite_ring_infinite [5]).2 (by decide) 3).1
